import Mathlib

/-!
Verification of the `logtime` log-file processing pipeline
(`src/logtime/logtime.py`, configuration in `src/logtime/config.py`).

Shallow embedding conventions:

* A file line is modelled as `List Char` (the characters of the Python
  string; lines produced by `get_lines` never contain `'\n'`).
* Character classes `\s` and `\d` of the Python regex are modelled for the
  ASCII range (`pySpace`, `pyDigit`); Python additionally accepts some
  non-ASCII whitespace/digit code points which never occur in log files.
* `datetime` values share the calendar date of the processed day and the
  same `tzinfo` object, so Python's aware-datetime subtraction is plain
  wall-clock difference; a timestamp is therefore modelled by its
  minutes-since-midnight value, and a `timedelta` by its exact number of
  seconds (always a multiple of 60 here).
* An uncaught Python exception is modelled by `Option.none` at the point
  where it escapes.
* Python `float` results (`minutes_to_rounded_decimal_hours`, the summary
  totals) are modelled in `ℚ`; all values appearing there are quarter
  integers, which float arithmetic represents and adds exactly at the
  magnitudes a daily log can produce.
-/

namespace Logtime

/-- A single log-file line: the characters of the Python string. -/
abbrev Line := List Char

/-- Python regex `\s` restricted to ASCII whitespace. -/
def pySpace (c : Char) : Bool :=
  c == ' ' || c == '\t' || c == '\n' || c == '\r' || c == '\x0b' || c == '\x0c'

/-- Python regex `\d` / `[0-9]` restricted to ASCII digits. -/
def pyDigit (c : Char) : Bool :=
  c.isDigit

/-- Python `str.strip()`: remove whitespace from both ends. -/
def pyStrip (l : Line) : Line :=
  ((l.dropWhile pySpace).reverse.dropWhile pySpace).reverse

/-- Result of a successful `LINE_PATTERN` match, split into its digit
groups.  The Python `parse_line` returns
`(time_str, task_id, desc)` where `time_str = hourDigits ++ ":" ++ minuteDigits`
(group 1 stripped of its leading whitespace), `task_id` is group 2 and
`desc` is group 3. -/
structure Parsed where
  hourDigits : Line
  minuteDigits : Line
  taskId : Option Line
  desc : Line
deriving DecidableEq, Repr, Inhabited

/-- The stripped `time_str` component of the Python triple. -/
def Parsed.timeStr (p : Parsed) : Line :=
  p.hourDigits ++ ':' :: p.minuteDigits

/-- Model of `parse_line` (logtime.py:47-58): match
`^(\s*\d{1,2}:\d{2})\s+([0-9]{5})?\s*(.*)$` and return the groups, or
`none` when the line does not match.  Backtracking in the regex is
resolved away: `\s*`/`\s+` are greedy against the disjoint class `\d`,
`\d{1,2}` can only succeed with the maximal digit run (of length 1 or 2)
before a `':'`, the optional `([0-9]{5})?` participates exactly when the
five characters after the whitespace are digits, and `(.*)$` always
accepts the remainder (lines contain no `'\n'`). -/
def parse_line (line : Line) : Option Parsed :=
  let r1 := line.dropWhile pySpace
  let hs := r1.takeWhile pyDigit
  if hs.length = 0 ∨ 2 < hs.length then none
  else
    match r1.drop hs.length with
    | ':' :: m1 :: m2 :: r3 =>
      if pyDigit m1 && pyDigit m2 then
        match r3 with
        | [] => none
        | c :: _ =>
          if pySpace c then
            let r4 := r3.dropWhile pySpace
            if (r4.take 5).length = 5 ∧ (r4.take 5).all pyDigit then
              some ⟨hs, [m1, m2], some (r4.take 5), (r4.drop 5).dropWhile pySpace⟩
            else
              some ⟨hs, [m1, m2], none, r4⟩
          else none
      else none
    | _ => none

/-- Numeric value of a digit string, as computed by Python `int`. -/
def digitsVal (ds : Line) : Nat :=
  ds.foldl (fun a c => a * 10 + (c.toNat - '0'.toNat)) 0

/-- Model of `datetime(year, month, day, hour, minute, tzinfo=LOG_TZ)` for
the fixed processed date: the minutes-since-midnight value, or `none` when
the constructor raises `ValueError` (hour > 23 or minute > 59; the parsed
digit groups are bounded by 99 so no other argument can be out of range). -/
def mk_datetime (hour minute : Nat) : Option Nat :=
  if hour ≤ 23 ∧ minute ≤ 59 then some (hour * 60 + minute) else none

/-- Model of `get_timestamps` (logtime.py:101-127): parse each line,
silently skip non-matching lines, split the time string into hour and
minute (`int` on the digit groups never fails, so the guarded conversion
never skips) and build the datetime.  The datetime construction happens
outside the `try` block, so a `ValueError` escapes: modelled as `none`. -/
def get_timestamps : List Line → Option (List Nat)
  | [] => some []
  | l :: ls =>
    match parse_line l with
    | none => get_timestamps ls
    | some p =>
      match mk_datetime (digitsVal p.hourDigits) (digitsVal p.minuteDigits) with
      | none => none
      | some t => (get_timestamps ls).map (t :: ·)

/-- Model of `get_deltas` (logtime.py:130-132): pairwise differences of
consecutive timestamps.  A `timedelta` is represented by its exact number
of seconds (`int(td.total_seconds())` is exact on whole-minute deltas). -/
def get_deltas : List Nat → List Int
  | t1 :: t2 :: rest => ((t2 : Int) - (t1 : Int)) * 60 :: get_deltas (t2 :: rest)
  | _ => []

/-- Model of the `TaskResult` dataclass (logtime.py:30-34). -/
structure TaskResult where
  task_id : Option Line
  delta_seconds : Int
  desc : Line
deriving DecidableEq, Repr, Inhabited

/-- Loop body of `get_tasks_results` (logtime.py:141-152), carrying the
`enumerate` index `i`: unparsable lines are skipped (`continue`), a parsed
line with `i >= len(deltas)` stops the loop (`break`), otherwise the line
is paired with `deltas[i]`. -/
def get_tasks_results_aux (deltas : List Int) : Nat → List Line → List TaskResult
  | _, [] => []
  | i, l :: ls =>
    match parse_line l with
    | none => get_tasks_results_aux deltas (i + 1) ls
    | some p =>
      if i < deltas.length then
        ⟨p.taskId, deltas[i]!, p.desc⟩ :: get_tasks_results_aux deltas (i + 1) ls
      else []

/-- Model of `get_tasks_results` (logtime.py:135-153). -/
def get_tasks_results (deltas : List Int) (lines : List Line) : List TaskResult :=
  get_tasks_results_aux deltas 0 lines

/-- Model of one aggregation bucket (the per-key `dict` built by
`group_tasks`).  A missing `"task_id"` key is modelled as `none`; the
Python `set` of descriptions is modelled as a duplicate-free list in
insertion order (only membership and a sorted rendering are ever used).
The four finalized fields are filled by `finalizeEntry` and default to `0`
during accumulation. -/
structure GroupEntry where
  delta : Int
  descs : List Line
  task_id : Option Line
  task_total_mins : Int := 0
  task_total_hours : Int := 0
  task_total_rest : Int := 0
  rounded_hours : ℚ := 0
deriving DecidableEq, Repr, Inhabited

/-- The `Grouped` mapping: a Python `dict` in insertion order, keys unique. -/
abbrev Grouped := List (Line × GroupEntry)

/-- First value stored under a key (Python `dict` lookup; keys of a real
`Grouped` are unique, so first = only). -/
def lookupE : Grouped → Line → Option GroupEntry
  | [], _ => none
  | (k, e) :: rest, key => if k = key then some e else lookupE rest key

/-- Python truthiness of the optional task id (`if tr.task_id:`):
true exactly for a present, non-empty string. -/
def truthy : Option Line → Bool
  | some t => !t.isEmpty
  | none => false

/-- The grouping key of `group_tasks` (logtime.py:164-169):
`f"{tr.task_id} {tr.desc}"` when the task id is truthy, else
`tr.desc or "#no-desc"`. -/
def group_key (tr : TaskResult) : Line :=
  if truthy tr.task_id then tr.task_id.getD [] ++ ' ' :: tr.desc
  else if tr.desc.isEmpty then "#no-desc".data else tr.desc

/-- Python `set.add`: keep the existing element set, append a new element. -/
def addDesc (descs : List Line) (d : Line) : List Line :=
  if d ∈ descs then descs else descs ++ [d]

/-- The per-result mutation of a bucket (logtime.py:170-172):
`entry["delta"] += mins` with `mins = int(tr.delta_seconds / 60)`
(truncating division), then `entry["desc"].add(tr.desc)` when the
description is non-empty. -/
def entryAdd (tr : TaskResult) (e : GroupEntry) : GroupEntry :=
  { e with delta := e.delta + tr.delta_seconds.tdiv 60,
           descs := if tr.desc.isEmpty then e.descs else addDesc e.descs tr.desc }

/-- The `setdefault` default (logtime.py:166-169): with a truthy task id
the fresh bucket stores it, otherwise the bucket has no `"task_id"` key. -/
def initEntry (tr : TaskResult) : GroupEntry :=
  { delta := 0, descs := [], task_id := if truthy tr.task_id then tr.task_id else none }

/-- One iteration of the accumulation loop of `group_tasks`
(logtime.py:162-172): `setdefault` then mutate the bucket in place. -/
def group_step (acc : Grouped) (tr : TaskResult) : Grouped :=
  let key := group_key tr
  if (lookupE acc key).isSome then
    acc.map (fun kv => if kv.1 = key then (kv.1, entryAdd tr kv.2) else kv)
  else
    acc ++ [(key, entryAdd tr (initEntry tr))]

/-- Model of `minutes_to_rounded_decimal_hours` (logtime.py:184-187):
`round(total_minutes / 60.0 * 4) / 4` in exact arithmetic.  Python's
`round` is round-half-to-even on floats, Mathlib's `round` is
round-half-up; `total_minutes / 60 * 4 = total_minutes / 15` is never an
exact half-integer for an integer argument (see
`quarter_scaled_minutes_never_half`), so the two rules agree here. -/
def minutes_to_rounded_decimal_hours (total_minutes : Int) : ℚ :=
  ((round ((total_minutes : ℚ) / 60 * 4) : ℤ) : ℚ) / 4

/-- The finalize pass of `group_tasks` (logtime.py:174-180): fill the
derived fields from the accumulated minutes.  Python `//` and `%` on a
positive divisor coincide with `Int.ediv` / `Int.emod`. -/
def finalizeEntry (e : GroupEntry) : GroupEntry :=
  { e with task_total_mins := e.delta,
           task_total_hours := e.delta.ediv 60,
           task_total_rest := e.delta.emod 60,
           rounded_hours := minutes_to_rounded_decimal_hours e.delta }

/-- Model of `group_tasks` (logtime.py:156-181). -/
def group_tasks (tasks_results : List TaskResult) : Grouped :=
  (tasks_results.foldl group_step []).map (fun kv => (kv.1, finalizeEntry kv.2))

/-- Python `str.startswith("#")`. -/
def startsWithHash : Line → Bool
  | '#' :: _ => true
  | _ => false

/-- Model of `compute_totals` (logtime.py:275-279): the work/free grand
totals in seconds, split on a `"#"`-prefixed description. -/
def compute_totals (tasks_results : List TaskResult) : Int × Int :=
  (((tasks_results.filter (fun tr => !startsWithHash tr.desc)).map
      (fun tr => tr.delta_seconds)).sum,
   ((tasks_results.filter (fun tr => startsWithHash tr.desc)).map
      (fun tr => tr.delta_seconds)).sum)

/-- Model of `apply_defaults` (logtime.py:265-272): for every entry of the
defaults table whose description is a key of the grouped mapping, set that
bucket's task id to the table value (in-place dict update, modelled by
rebuilding the association list). -/
def apply_defaults (grouped_tasks : Grouped) (defaults_map : List (Line × Line)) : Grouped :=
  defaults_map.foldl
    (fun g kv =>
      if (lookupE g kv.1).isSome then
        g.map (fun be => if be.1 = kv.1 then (be.1, { be.2 with task_id := some kv.2 }) else be)
      else g)
    grouped_tasks

/-- The `defaults` table of `src/logtime/config.py` (lines 6-25). -/
def defaults : List (Line × Line) :=
  [("sync".data, "77549".data),
   ("rezie".data, "77549".data),
   ("organization".data, "77549".data),
   ("standup".data, "77488".data),
   ("refinement".data, "77548".data),
   ("refinement priprava".data, "77548".data),
   ("review".data, "77489".data),
   ("review priprava".data, "77489".data),
   ("retro".data, "77489".data),
   ("retrospektiva".data, "77489".data),
   ("retrospektiva priprava".data, "77489".data),
   ("planning".data, "77491".data),
   ("planning priprava".data, "77491".data),
   ("kontrola prostredi".data, "77546".data),
   ("cop".data, "77422".data),
   ("CoP".data, "77422".data),
   ("CoP priprava".data, "80565".data),
   ("cop priprava".data, "80565".data)]

/-- Model of `get_lines` (logtime.py:81-88) on an already-read file: keep
the lines with non-whitespace content (`if line.strip()`); the trailing
newline removal is implicit since lines are represented without `'\n'`. -/
def get_lines (raw : List Line) : List Line :=
  raw.filter (fun l => !(pyStrip l).isEmpty)

/-- Model of `is_already_parsed` (logtime.py:91-98): `False` on an empty
list, else whether the stripped last line equals `"already parsed"`. -/
def is_already_parsed (lines : List Line) : Bool :=
  match lines.getLast? with
  | none => false
  | some l => pyStrip l = "already parsed".data

/-- `EIGHT_HOURS_IN_MINS` (logtime.py:21). -/
def EIGHT_HOURS_IN_MINS : Int := 480

/-- The running sum of `rounded_hours` over the non-`"#"` buckets
accumulated by the summary loop (logtime.py:202-206); `ℚ` addition is
commutative so the loop order is irrelevant. -/
def total_rounded_hours (grouped_tasks : Grouped) : ℚ :=
  ((grouped_tasks.filter (fun kv => !startsWithHash kv.1)).map
    (fun kv => kv.2.rounded_hours)).sum

/-- `total_delta_work_mins` (logtime.py:230): seconds to minutes by
truncating division `int(total_delta_work / 60)`. -/
def total_delta_work_mins (total_delta_work : Int) : Int :=
  total_delta_work.tdiv 60

/-- `saldo_mins` (logtime.py:239): `int(abs(total_rounded_hours * 60 -
EIGHT_HOURS_IN_MINS))`; the argument of `int` is a non-negative multiple
of 15 for real buckets, and truncation of a non-negative rational is its
floor. -/
def saldo_mins (grouped_tasks : Grouped) : Int :=
  ⌊|total_rounded_hours grouped_tasks * 60 - (EIGHT_HOURS_IN_MINS : ℚ)|⌋

/-- `sign` (logtime.py:240-243): `"-"` exactly when the work minutes are
below the eight-hour target. -/
def summary_sign (total_delta_work : Int) : Line :=
  if EIGHT_HOURS_IN_MINS ≤ total_delta_work_mins total_delta_work then [] else ['-']

/-- The closing remark (logtime.py:256-261). -/
def summary_remark (grouped_tasks : Grouped) (total_delta_work : Int) : Line :=
  if saldo_mins grouped_tasks = 0 then "working šul-nul".data
  else if summary_sign total_delta_work = ([] : Line) then "working too much".data
  else "working too little".data

/-- Lexicographic comparison of lines by code point, Python's string `<=`. -/
def lineLe : Line → Line → Bool
  | [], _ => true
  | _ :: _, [] => false
  | a :: as, b :: bs =>
    if a.toNat < b.toNat then true
    else if a.toNat = b.toNat then lineLe as bs
    else false

/-- Insert into a `lineLe`-sorted list, keeping it sorted. -/
def insertSorted (x : Line) : List Line → List Line
  | [] => [x]
  | y :: ys => if lineLe x y then x :: y :: ys else y :: insertSorted x ys

/-- Python `sorted` on a set of strings (insertion sort; ties are equal
strings, so stability is moot). -/
def sortLines (ls : List Line) : List Line :=
  ls.foldr insertSorted []

/-- Python `", ".join(...)`. -/
def joinCommaSep : List Line → Line
  | [] => []
  | [l] => l
  | l :: ls => l ++ ", ".data ++ joinCommaSep ls

/-- Rendering of an integer in an f-string; Python and Lean print integers
identically. -/
def intText (n : Int) : Line :=
  (toString n).data

/-- Rendering of a float value in an f-string, abstracted to the `toString`
of the exact rational it denotes (Python prints `0.25`, this model prints
`1/4`; no verified property depends on the digits). -/
def ratText (q : ℚ) : Line :=
  (toString q).data

/-- The `joined_desc` of the summary loop (logtime.py:207). -/
def joined_desc (e : GroupEntry) : Line :=
  joinCommaSep (sortLines e.descs)

/-- The per-bucket label `text` (logtime.py:209-217): outside `"#"` groups,
the descriptions alone when the task id is absent or equals them,
otherwise the task id followed by the descriptions; for `"#"` groups the
key takes the place of the task id. -/
def bucketLabel (key : Line) (e : GroupEntry) : Line :=
  if !startsWithHash key then
    match e.task_id with
    | none => joined_desc e
    | some t => if joined_desc e = t then joined_desc e else t ++ ' ' :: joined_desc e
  else
    if joined_desc e = key then joined_desc e else key ++ ' ' :: joined_desc e

/-- One bucket line of the summary (logtime.py:219-222):
`f"{mins} = {hours}h {rest}m ~ {rounded}h: {text}\n"`. -/
def bucketLine (key : Line) (e : GroupEntry) : Line :=
  intText e.task_total_mins ++ " = ".data ++ intText e.task_total_hours ++ "h ".data
    ++ intText e.task_total_rest ++ "m ~ ".data ++ ratText e.rounded_hours ++ "h: ".data
    ++ bucketLabel key e ++ "\n".data

/-- All bucket lines in dict (insertion) order. -/
def bucketsText (grouped_tasks : Grouped) : Line :=
  (grouped_tasks.map (fun kv => bucketLine kv.1 kv.2)).flatten

/-- The grand-total lines of the summary (logtime.py:224-255), from the
`total:` line through the `saldo:` line.  All divisions are Python
`int(x / 60)` (truncating) or `//`/`%` on the positive divisor 60. -/
def totalsText (grouped_tasks : Grouped) (total_delta_work total_delta_free : Int) : Line :=
  let total_mins := (total_delta_work + total_delta_free).tdiv 60
  let work_mins := total_delta_work.tdiv 60
  let free_mins := total_delta_free.tdiv 60
  let saldo := saldo_mins grouped_tasks
  let sign := summary_sign total_delta_work
  "total: ".data ++ intText (total_mins.ediv 60) ++ "h ".data
    ++ intText (total_mins.emod 60) ++ "m (".data ++ intText total_mins ++ ")\n".data
  ++ "total work: ".data ++ intText (work_mins.ediv 60) ++ "h ".data
    ++ intText (work_mins.emod 60) ++ "m (".data ++ intText work_mins ++ ")\n".data
  ++ "total work rounded hours: ".data ++ ratText (total_rounded_hours grouped_tasks)
    ++ "\n".data
  ++ "total free:  ".data ++ intText (free_mins.ediv 60) ++ "h ".data
    ++ intText (free_mins.emod 60) ++ "m (".data ++ intText free_mins ++ ")\n".data
  ++ "saldo: ".data ++ sign ++ intText (saldo.ediv 60) ++ "h ".data
    ++ intText (saldo.emod 60) ++ "m (".data ++ sign ++ intText saldo ++ ")\n".data

/-- The whole block written by `append_result` (logtime.py:200-262), in
write order: header, bucket lines, blank line, totals, remark line, and
the terminal `"already parsed"` marker with nothing after it. -/
def appendBlock (grouped_tasks : Grouped) (total_delta_work total_delta_free : Int) : Line :=
  "\n\nSummary:\n".data ++ bucketsText grouped_tasks ++ "\n".data
    ++ totalsText grouped_tasks total_delta_work total_delta_free
    ++ summary_remark grouped_tasks total_delta_work
    ++ "\n".data ++ "already parsed".data

/-- Model of `append_result` (logtime.py:190-262) as a function on the file
content: opening with mode `"a"` appends, so the new content is the old
content followed by the block. -/
def append_result (content : Line) (grouped_tasks : Grouped)
    (total_delta_work total_delta_free : Int) : Line :=
  content ++ appendBlock grouped_tasks total_delta_work total_delta_free

/-- Outcome of one `main` run (logtime.py:308-337) up to the interactive
send prompt, for a file with the given raw lines. -/
inductive MainResult where
  | alreadyParsed
  | error
  | wrote (block : Line)
deriving DecidableEq, Repr

/-- Model of `main` (logtime.py:308-337) after the file has been read:
early return when the file is already parsed (no parsing, aggregation or
writing happens), otherwise run the pipeline and append the summary block;
an escaping `ValueError` from `get_timestamps` aborts the run. -/
def main_run (raw : List Line) : MainResult :=
  let lines := get_lines raw
  if is_already_parsed lines then .alreadyParsed
  else
    match get_timestamps lines with
    | none => .error
    | some timestamps =>
      let deltas := get_deltas timestamps
      let tasks_results := get_tasks_results deltas lines
      let totals := compute_totals tasks_results
      let grouped_tasks := apply_defaults (group_tasks tasks_results) defaults
      .wrote (appendBlock grouped_tasks totals.1 totals.2)

/-- The emission rule of claim C1, stated from the spec's words for one
enumerated line: at position `i`, a line that parses with `i <
len(deltas)` emits a `TaskResult` carrying `delta[i]`; lines failing to
parse and positions at or beyond `len(deltas)` emit nothing. -/
def emitAt (deltas : List Int) (il : Nat × Line) : Option TaskResult :=
  match parse_line il.2 with
  | none => none
  | some p => if il.1 < deltas.length then some ⟨p.taskId, deltas[il.1]!, p.desc⟩ else none

/-- Claim C1's contract for `get_tasks_results`, stated from the spec's
words: one `TaskResult` exactly for each line at position `i < len(deltas)`
that parses, carrying `delta[i]`, in line order. -/
def tasksResultsSpec (deltas : List Int) (lines : List Line) : List TaskResult :=
  lines.enum.filterMap (emitAt deltas)

section Helpers

variable {α : Type _} {β : Type _}

theorem sum_filter_split (p : α → Bool) (f : α → Int) (l : List α) :
    ((l.filter p).map f).sum + ((l.filter (fun a => !p a)).map f).sum = (l.map f).sum := by
  induction l with
  | nil => simp
  | cons a l ih =>
    cases h : p a <;> simp [List.filter_cons, h] <;> omega

end Helpers

/-- Claim C4: `compute_totals` returns the work total (descriptions not
starting with `"#"`) and the free total (descriptions starting with
`"#"`), each result contributes to exactly the one total selected by its
description, and the two totals add up to the sum of all `delta_seconds`. -/
theorem compute_totals_spec (tasks_results : List TaskResult) :
    (compute_totals tasks_results).1
        = ((tasks_results.filter (fun tr => !startsWithHash tr.desc)).map
            (fun tr => tr.delta_seconds)).sum
      ∧ (compute_totals tasks_results).2
        = ((tasks_results.filter (fun tr => startsWithHash tr.desc)).map
            (fun tr => tr.delta_seconds)).sum
      ∧ (compute_totals tasks_results).1 + (compute_totals tasks_results).2
        = (tasks_results.map (fun tr => tr.delta_seconds)).sum := by
  refine ⟨rfl, rfl, ?_⟩
  have h := sum_filter_split (fun tr : TaskResult => startsWithHash tr.desc)
    (fun tr => tr.delta_seconds) tasks_results
  simp only [compute_totals]
  omega

/-- Claim C10: `append_result` only appends — the previous file content is
an unchanged prefix of the new content — and the appended block's final
line is the literal text `"already parsed"` with nothing after it. -/
theorem append_result_appends (content : Line) (grouped_tasks : Grouped)
    (total_delta_work total_delta_free : Int) :
    ∃ blk, append_result content grouped_tasks total_delta_work total_delta_free
        = content ++ blk
      ∧ ∃ pre, blk = pre ++ '\n' :: "already parsed".data := by
  refine ⟨appendBlock grouped_tasks total_delta_work total_delta_free, rfl,
    "\n\nSummary:\n".data ++ bucketsText grouped_tasks ++ "\n".data
      ++ totalsText grouped_tasks total_delta_work total_delta_free
      ++ summary_remark grouped_tasks total_delta_work, ?_⟩
  simp [appendBlock, List.append_assoc]

/-- Claim C5, counterexample to the claim as stated: `is_already_parsed`
strips whitespace before comparing (logtime.py:95), so a file whose last
non-blank line is `"  already parsed"` — not exactly `"already parsed"` —
is nevertheless detected as already processed. -/
theorem is_already_parsed_not_exact :
    is_already_parsed (get_lines ["08:00 x".data, "  already parsed".data]) = true
      ∧ (get_lines ["08:00 x".data, "  already parsed".data]).getLast?
          = some "  already parsed".data
      ∧ "  already parsed".data ≠ "already parsed".data := by
  refine ⟨by decide, by decide, by decide⟩

/-- Claim C5 as amended: the file is detected as already processed iff its
last line with non-whitespace content, after stripping surrounding
whitespace, equals `"already parsed"` (`is_already_parsed` returns `False`
on an empty list), and on detection `main` returns before any parsing,
aggregation or writing. -/
theorem is_already_parsed_spec (raw : List Line) :
    (is_already_parsed (get_lines raw) = true
        ↔ ∃ l, (get_lines raw).getLast? = some l ∧ pyStrip l = "already parsed".data)
      ∧ is_already_parsed [] = false
      ∧ (is_already_parsed (get_lines raw) = true → main_run raw = .alreadyParsed) := by
  refine ⟨?_, rfl, ?_⟩
  · unfold is_already_parsed
    cases h : (get_lines raw).getLast? with
    | none => simp
    | some l => simp [h]
  · intro h
    unfold main_run
    simp [h]

/-- Claim C5 witness: a file ending in the exact marker line is detected
and the pipeline stops at the early return. -/
theorem is_already_parsed_spec_witness :
    is_already_parsed (get_lines ["08:00 x".data, "already parsed".data]) = true
      ∧ main_run ["08:00 x".data, "already parsed".data] = .alreadyParsed := by
  refine ⟨by decide, (is_already_parsed_spec _).2.2 (by decide)⟩

/-- Python-truthiness guard of claim C9, as a decidable line predicate:
either the line does not match `LINE_PATTERN`, or its parsed hour and
minute are in range for `datetime`. -/
def hourMinuteOk (l : Line) : Bool :=
  match parse_line l with
  | some p => digitsVal p.hourDigits ≤ 23 && digitsVal p.minuteDigits ≤ 59
  | none => true

/-- Claim C9: `get_timestamps` never raises — and returns one timestamp per
pattern-matching line — whenever every matching line's hour is at most 23
and minute at most 59; but the pattern accepts any 1-2 digit hour and any
2-digit minute, and the `datetime` construction sits outside the guarded
conversion, so on lines such as `"24:00 task"` or `"08:99 task"` it raises
an uncaught `ValueError` (modelled as `none`) instead of skipping. -/
theorem get_timestamps_spec (lines : List Line) :
    ((∀ l ∈ lines, hourMinuteOk l = true) →
        ∃ ts, get_timestamps lines = some ts
          ∧ ts.length = lines.countP (fun l => (parse_line l).isSome))
      ∧ get_timestamps ["24:00 task".data] = none
      ∧ get_timestamps ["08:99 task".data] = none := by
  refine ⟨?_, by decide, by decide⟩
  induction lines with
  | nil => exact fun _ => ⟨[], rfl, rfl⟩
  | cons l ls ih =>
    intro h
    obtain ⟨ts, hts, hlen⟩ := ih (fun x hx => h x (List.mem_cons_of_mem _ hx))
    have hl := h l (List.mem_cons_self _ _)
    cases hp : parse_line l with
    | none =>
      refine ⟨ts, ?_, ?_⟩
      · simpa [get_timestamps, hp] using hts
      · simp [List.countP_cons, hp, hlen]
    | some p =>
      rw [hourMinuteOk, hp] at hl
      have hb : digitsVal p.hourDigits ≤ 23 ∧ digitsVal p.minuteDigits ≤ 59 := by
        simpa using hl
      refine ⟨(digitsVal p.hourDigits * 60 + digitsVal p.minuteDigits) :: ts, ?_, ?_⟩
      · simp [get_timestamps, hp, mk_datetime, if_pos hb, hts]
      · simp [List.countP_cons, hp, hlen]

/-- Claim C9 witness: a concrete in-range file produces one timestamp per
matching line without raising. -/
theorem get_timestamps_spec_witness :
    (∀ l ∈ ["08:00 a".data, "junk".data, "23:59 b".data], hourMinuteOk l = true)
      ∧ ∃ ts, get_timestamps ["08:00 a".data, "junk".data, "23:59 b".data] = some ts
          ∧ ts.length = List.countP (fun l => (parse_line l).isSome)
              ["08:00 a".data, "junk".data, "23:59 b".data] := by
  exact ⟨by decide, (get_timestamps_spec _).1 (by decide)⟩

/-- First value stored under a key of the defaults table. -/
def lookupD : List (Line × Line) → Line → Option Line
  | [], _ => none
  | (k, v) :: rest, key => if k = key then some v else lookupD rest key

theorem lookupD_eq_none {dm : List (Line × Line)} {k : Line} :
    lookupD dm k = none ↔ k ∉ dm.map Prod.fst := by
  induction dm with
  | nil => simp [lookupD]
  | cons kv dm ih =>
    obtain ⟨k₁, v₁⟩ := kv
    by_cases h : k₁ = k
    · subst h
      simp [lookupD]
    · simp only [lookupD, if_neg h, List.map_cons, List.mem_cons, not_or, ih]
      exact ⟨fun hn => ⟨fun he => h he.symm, hn⟩, fun hn => hn.2⟩

theorem lookupD_eq_some_of_mem {dm : List (Line × Line)} {k v : Line}
    (hdm : (dm.map Prod.fst).Nodup) (h : (k, v) ∈ dm) : lookupD dm k = some v := by
  induction dm with
  | nil => simp at h
  | cons kv dm ih =>
    obtain ⟨k₁, v₁⟩ := kv
    simp only [List.map_cons, List.nodup_cons] at hdm
    rcases List.mem_cons.mp h with h1 | h1
    · rw [Prod.mk.injEq] at h1
      simp [lookupD, h1.1, h1.2]
    · have hk : k₁ ≠ k := by
        intro he
        exact hdm.1 (he ▸ (List.mem_map.mpr ⟨(k, v), h1, rfl⟩))
      simp [lookupD, hk, ih hdm.2 h1]

theorem lookupE_eq_none {g : Grouped} {k : Line} :
    lookupE g k = none ↔ k ∉ g.map Prod.fst := by
  induction g with
  | nil => simp [lookupE]
  | cons kv g ih =>
    obtain ⟨k₁, e₁⟩ := kv
    by_cases h : k₁ = k
    · subst h
      simp [lookupE]
    · simp only [lookupE, if_neg h, List.map_cons, List.mem_cons, not_or, ih]
      exact ⟨fun hn => ⟨fun he => h he.symm, hn⟩, fun hn => hn.2⟩

/-- Pointwise characterization of `apply_defaults` for a duplicate-free
defaults table: every bucket whose key is in the table gets its task id
replaced by the table value, every other bucket is untouched. -/
theorem apply_defaults_eq_map (g : Grouped) (dm : List (Line × Line))
    (hdm : (dm.map Prod.fst).Nodup) :
    apply_defaults g dm = g.map (fun kv =>
      match lookupD dm kv.1 with
      | some v => (kv.1, { kv.2 with task_id := some v })
      | none => kv) := by
  induction dm generalizing g with
  | nil => simp [apply_defaults, lookupD]
  | cons dv dm ih =>
    obtain ⟨d, v⟩ := dv
    simp only [List.map_cons, List.nodup_cons] at hdm
    have step : apply_defaults g ((d, v) :: dm)
        = apply_defaults
            (if (lookupE g d).isSome then
              g.map (fun be => if be.1 = d then (be.1, { be.2 with task_id := some v }) else be)
            else g) dm := by
      simp [apply_defaults]
    rw [step]
    by_cases hp : (lookupE g d).isSome
    · rw [if_pos hp, ih _ hdm.2, List.map_map]
      refine List.map_congr_left ?_
      intro kv _
      by_cases hk : kv.1 = d
      · have hd : lookupD dm d = none := lookupD_eq_none.mpr hdm.1
        simp [Function.comp, hk, hd, lookupD]
      · simp [Function.comp, hk, lookupD, Ne.symm hk]
    · rw [if_neg hp, ih _ hdm.2]
      refine List.map_congr_left ?_
      intro kv hkv
      have hnone : lookupE g d = none := by
        cases h : lookupE g d with
        | none => rfl
        | some e => rw [h] at hp; simp at hp
      have hk : kv.1 ≠ d := by
        intro he
        exact (lookupE_eq_none.mp hnone) (List.mem_map.mpr ⟨kv, hkv, he⟩)
      simp [lookupD, Ne.symm hk]

/-- Claim C8: after `apply_defaults`, every bucket whose key equals a
defaults-table description has its task id overwritten with (or set to)
the table's value, buckets matching no table entry are left entirely
unchanged, and the keys of the mapping are untouched. -/
theorem apply_defaults_spec (g : Grouped) (dm : List (Line × Line))
    (hdm : (dm.map Prod.fst).Nodup) :
    ((apply_defaults g dm).map Prod.fst = g.map Prod.fst)
      ∧ (∀ k e v, (k, e) ∈ g → (k, v) ∈ dm →
          (k, { e with task_id := some v }) ∈ apply_defaults g dm)
      ∧ (∀ k e, (k, e) ∈ g → k ∉ dm.map Prod.fst → (k, e) ∈ apply_defaults g dm) := by
  rw [apply_defaults_eq_map g dm hdm]
  refine ⟨?_, ?_, ?_⟩
  · rw [List.map_map]
    refine List.map_congr_left ?_
    intro kv _
    cases h : lookupD dm kv.1 <;> simp [Function.comp, h]
  · intro k e v hg hdv
    have h := lookupD_eq_some_of_mem hdm hdv
    refine List.mem_map.mpr ⟨(k, e), hg, ?_⟩
    simp [h]
  · intro k e hg hnd
    have h : lookupD dm k = none := lookupD_eq_none.mpr hnd
    refine List.mem_map.mpr ⟨(k, e), hg, ?_⟩
    simp [h]

/-- Claim C8 witness: the `"standup"` bucket, grouped without a task id,
gets task id `"77488"` from the config defaults table. -/
theorem apply_defaults_spec_witness :
    (defaults.map Prod.fst).Nodup
      ∧ ("standup".data,
          { delta := 60, descs := ["standup".data], task_id := none,
            task_total_mins := 60, task_total_hours := 1, task_total_rest := 0,
            rounded_hours := minutes_to_rounded_decimal_hours 60 : GroupEntry })
          ∈ group_tasks [⟨none, 3600, "standup".data⟩]
      ∧ ("standup".data, "77488".data) ∈ defaults
      ∧ ("standup".data,
          { delta := 60, descs := ["standup".data], task_id := some "77488".data,
            task_total_mins := 60, task_total_hours := 1, task_total_rest := 0,
            rounded_hours := minutes_to_rounded_decimal_hours 60 : GroupEntry })
          ∈ apply_defaults (group_tasks [⟨none, 3600, "standup".data⟩]) defaults := by
  refine ⟨by decide, List.mem_cons_self _ _, by decide, ?_⟩
  exact (apply_defaults_spec (group_tasks [⟨none, 3600, "standup".data⟩]) defaults
    (by decide)).2.1 _ _ _ (List.mem_cons_self _ _) (by decide)

/-- Evaluation form of `minutes_to_rounded_decimal_hours`:
`round(m/60*4) = ⌊m/15 + 1/2⌋ = (2m + 15) div 30` (floor division). -/
theorem mrdh_eval (m : ℤ) :
    minutes_to_rounded_decimal_hours m = (((2 * m + 15) / 30 : ℤ) : ℚ) / 4 := by
  unfold minutes_to_rounded_decimal_hours
  have h : ((m : ℚ) / 60 * 4 + 1 / 2) = ((2 * m + 15 : ℤ) : ℚ) / ((30 : ℕ) : ℚ) := by
    push_cast
    ring
  have h2 : round ((m : ℚ) / 60 * 4) = (2 * m + 15) / 30 := by
    rw [round_eq, h, Rat.floor_intCast_div_natCast]
    norm_num
  rw [h2]

theorem mrdh_val0 : minutes_to_rounded_decimal_hours 0 = 0 := by
  rw [mrdh_eval]; norm_num

theorem mrdh_val15 : minutes_to_rounded_decimal_hours 15 = 1 / 4 := by
  rw [mrdh_eval]; norm_num

theorem mrdh_val30 : minutes_to_rounded_decimal_hours 30 = 1 / 2 := by
  rw [mrdh_eval]; norm_num

theorem mrdh_val45 : minutes_to_rounded_decimal_hours 45 = 3 / 4 := by
  rw [mrdh_eval]; norm_num

theorem mrdh_val60 : minutes_to_rounded_decimal_hours 60 = 1 := by
  rw [mrdh_eval]; norm_num

theorem mrdh_val7 : minutes_to_rounded_decimal_hours 7 = 0 := by
  rw [mrdh_eval]; norm_num

theorem mrdh_val8 : minutes_to_rounded_decimal_hours 8 = 1 / 4 := by
  rw [mrdh_eval]; norm_num

/-- Claim C3: the rounding function is `round(total_minutes/60 × 4)/4` with
the stated values (including both boundary cases 7 and 8; ties at exact
half-integers never arise for integer minutes, so Python's half-even
rounding and the half-up `round` coincide), and every bucket of
`group_tasks` satisfies `total_hours = total_minutes div 60`,
`remainder = total_minutes mod 60` and `hours × 60 + remainder = total
minutes`. -/
theorem minutes_rounding_spec :
    (∀ m : ℤ, minutes_to_rounded_decimal_hours m = ((round ((m : ℚ) / 60 * 4) : ℤ) : ℚ) / 4)
      ∧ minutes_to_rounded_decimal_hours 0 = 0
      ∧ minutes_to_rounded_decimal_hours 15 = 1 / 4
      ∧ minutes_to_rounded_decimal_hours 30 = 1 / 2
      ∧ minutes_to_rounded_decimal_hours 45 = 3 / 4
      ∧ minutes_to_rounded_decimal_hours 60 = 1
      ∧ minutes_to_rounded_decimal_hours 7 = 0
      ∧ minutes_to_rounded_decimal_hours 8 = 1 / 4
      ∧ (∀ m k : ℤ, (m : ℚ) / 60 * 4 ≠ (k : ℚ) + 1 / 2)
      ∧ (∀ (trs : List TaskResult) (k : Line) (e : GroupEntry), (k, e) ∈ group_tasks trs →
          e.task_total_hours = e.task_total_mins.ediv 60
            ∧ e.task_total_rest = e.task_total_mins.emod 60
            ∧ e.task_total_hours * 60 + e.task_total_rest = e.task_total_mins) := by
  refine ⟨fun m => rfl, mrdh_val0, mrdh_val15, mrdh_val30, mrdh_val45, mrdh_val60,
    mrdh_val7, mrdh_val8, ?_, ?_⟩
  · intro m k h
    have h2 : (2 * m : ℚ) = 30 * k + 15 := by
      field_simp at h
      linarith
    have h3 : (2 * m : ℤ) = 30 * k + 15 := by exact_mod_cast h2
    omega
  · intro trs k e he
    obtain ⟨kv, _, heq⟩ := List.mem_map.mp he
    have he2 : e = finalizeEntry kv.2 := by
      have := congrArg Prod.snd heq
      simpa using this.symm
    subst he2
    refine ⟨rfl, rfl, ?_⟩
    have h60 : 60 * kv.2.delta.ediv 60 + kv.2.delta.emod 60 = kv.2.delta :=
      Int.ediv_add_emod _ 60
    simp only [finalizeEntry]
    linarith [h60]

/-- Claim C3 witness: a 61-minute bucket has hours 1, remainder 1, and
1 × 60 + 1 = 61. -/
theorem minutes_rounding_spec_witness :
    ("a".data,
        { delta := 61, descs := ["a".data], task_id := none,
          task_total_mins := 61, task_total_hours := 1, task_total_rest := 1,
          rounded_hours := minutes_to_rounded_decimal_hours 61 : GroupEntry })
        ∈ group_tasks [⟨none, 3660, "a".data⟩]
      ∧ ((1 : ℤ) = (61 : ℤ).ediv 60 ∧ (1 : ℤ) = (61 : ℤ).emod 60
          ∧ (1 : ℤ) * 60 + 1 = 61) := by
  refine ⟨List.mem_cons_self _ _, ?_⟩
  exact minutes_rounding_spec.2.2.2.2.2.2.2.2.2 [⟨none, 3660, "a".data⟩] "a".data
    { delta := 61, descs := ["a".data], task_id := none,
      task_total_mins := 61, task_total_hours := 1, task_total_rest := 1,
      rounded_hours := minutes_to_rounded_decimal_hours 61 } (List.mem_cons_self _ _)

/-- A sum of quarter-integer `rounded_hours` values over the non-`"#"`
buckets is itself a quarter integer. -/
theorem total_rounded_hours_quarter (g : Grouped)
    (hq : ∀ kv ∈ g, (kv.2.rounded_hours * 4).den = 1) :
    ∃ z : ℤ, total_rounded_hours g = (z : ℚ) / 4 := by
  induction g with
  | nil => exact ⟨0, by simp [total_rounded_hours]⟩
  | cons kv g ih =>
    obtain ⟨z, hz⟩ := ih (fun x hx => hq x (List.mem_cons_of_mem _ hx))
    have hkv := hq kv (List.mem_cons_self _ _)
    cases h : startsWithHash kv.1 with
    | true =>
      refine ⟨z, ?_⟩
      simpa [total_rounded_hours, List.filter_cons, h] using hz
    | false =>
      have h4 : kv.2.rounded_hours * 4 = ((kv.2.rounded_hours * 4).num : ℚ) :=
        ((Rat.den_eq_one_iff _).mp hkv).symm
      refine ⟨(kv.2.rounded_hours * 4).num + z, ?_⟩
      have ht : total_rounded_hours (kv :: g) = kv.2.rounded_hours + total_rounded_hours g := by
        simp [total_rounded_hours, List.filter_cons, h]
      rw [ht, hz]
      push_cast
      rw [← h4]
      ring

/-- Claim C6: the saldo magnitude in minutes is the absolute difference
between the 480-minute target and 60 times the rounded-hours running sum
over non-`"#"` buckets; its sign is `"-"` exactly when the work minutes
are below 480; and the closing remark is the on-target message at saldo
zero, `"working too much"` when the work minutes reach the target, and
`"working too little"` otherwise (the hypothesis — every bucket's
`rounded_hours` is a quarter integer — holds for every `group_tasks`
output). -/
theorem saldo_spec (g : Grouped) (w : Int)
    (hq : ∀ kv ∈ g, (kv.2.rounded_hours * 4).den = 1) :
    ((saldo_mins g : ℚ) = |(EIGHT_HOURS_IN_MINS : ℚ) - 60 * total_rounded_hours g|)
      ∧ (summary_sign w = ['-'] ↔ total_delta_work_mins w < EIGHT_HOURS_IN_MINS)
      ∧ (saldo_mins g = 0 → summary_remark g w = "working šul-nul".data)
      ∧ (saldo_mins g ≠ 0 → EIGHT_HOURS_IN_MINS ≤ total_delta_work_mins w →
          summary_remark g w = "working too much".data)
      ∧ (saldo_mins g ≠ 0 → total_delta_work_mins w < EIGHT_HOURS_IN_MINS →
          summary_remark g w = "working too little".data) := by
  obtain ⟨z, hz⟩ := total_rounded_hours_quarter g hq
  have habs : total_rounded_hours g * 60 - (EIGHT_HOURS_IN_MINS : ℚ)
      = ((15 * z - 480 : ℤ) : ℚ) := by
    rw [hz]
    push_cast
    unfold EIGHT_HOURS_IN_MINS
    push_cast
    ring
  have hsal : saldo_mins g = |15 * z - 480| := by
    unfold saldo_mins
    rw [habs, ← Int.cast_abs, Int.floor_intCast]
  refine ⟨?_, ?_, ?_, ?_, ?_⟩
  · rw [hsal, hz]
    push_cast
    unfold EIGHT_HOURS_IN_MINS
    rw [abs_sub_comm]
    push_cast
    ring_nf
  · unfold summary_sign
    by_cases h : EIGHT_HOURS_IN_MINS ≤ total_delta_work_mins w
    all_goals simp [h]
    all_goals omega
  · intro h0
    unfold summary_remark
    simp [h0]
  · intro h0 hw
    unfold summary_remark summary_sign
    simp [h0, hw]
  · intro h0 hw
    unfold summary_remark summary_sign
    have : ¬EIGHT_HOURS_IN_MINS ≤ total_delta_work_mins w := by omega
    simp [h0, this]

/-- Claim C6 witness: a single one-hour task with 3600 s of work gives
saldo magnitude |480 − 60·1| = 420 and the `"working too little"` remark. -/
theorem saldo_spec_witness :
    (∀ kv ∈ group_tasks [⟨none, 3600, "a".data⟩], (kv.2.rounded_hours * 4).den = 1)
      ∧ ((saldo_mins (group_tasks [⟨none, 3600, "a".data⟩]) : ℚ)
          = |(EIGHT_HOURS_IN_MINS : ℚ)
              - 60 * total_rounded_hours (group_tasks [⟨none, 3600, "a".data⟩])|)
      ∧ saldo_mins (group_tasks [⟨none, 3600, "a".data⟩]) = 420
      ∧ summary_remark (group_tasks [⟨none, 3600, "a".data⟩]) 3600
          = "working too little".data := by
  have hg : group_tasks [⟨none, 3600, "a".data⟩]
      = [("a".data,
          { delta := 60, descs := ["a".data], task_id := none,
            task_total_mins := 60, task_total_hours := 1, task_total_rest := 0,
            rounded_hours := minutes_to_rounded_decimal_hours 60 : GroupEntry })] := rfl
  have hq : ∀ kv ∈ group_tasks [⟨none, 3600, "a".data⟩], (kv.2.rounded_hours * 4).den = 1 := by
    intro kv hkv
    rw [hg] at hkv
    rw [List.mem_singleton.mp hkv]
    rw [mrdh_val60]
    norm_num
  have htr : total_rounded_hours (group_tasks [⟨none, 3600, "a".data⟩]) = 1 := by
    rw [hg]
    simp [total_rounded_hours, List.filter_cons, startsWithHash, mrdh_val60]
  have hs : saldo_mins (group_tasks [⟨none, 3600, "a".data⟩]) = 420 := by
    unfold saldo_mins
    rw [htr, show |(1 : ℚ) * 60 - (EIGHT_HOURS_IN_MINS : ℚ)| = ((420 : ℤ) : ℚ) by
      unfold EIGHT_HOURS_IN_MINS; push_cast; norm_num]
    exact Int.floor_intCast 420
  refine ⟨hq, (saldo_spec _ 3600 hq).1, hs, ?_⟩
  refine (saldo_spec _ 3600 hq).2.2.2.2 ?_ ?_
  · rw [hs]
    norm_num
  · decide

/-- Effect of one `group_step` on the bucket stored under one key `k`. -/
def bucketStep (k : Line) (o : Option GroupEntry) (tr : TaskResult) : Option GroupEntry :=
  if group_key tr = k then some (entryAdd tr (o.getD (initEntry tr))) else o

theorem lookupE_append_of_isSome {g₁ g₂ : Grouped} {k : Line}
    (h : (lookupE g₁ k).isSome) : lookupE (g₁ ++ g₂) k = lookupE g₁ k := by
  induction g₁ with
  | nil => simp [lookupE] at h
  | cons kv g₁ ih =>
    obtain ⟨k₁, e₁⟩ := kv
    by_cases hk : k₁ = k
    · simp [lookupE, hk]
    · rw [lookupE, if_neg hk] at h
      simp [lookupE, hk, ih h]

theorem lookupE_append_of_none {g₁ g₂ : Grouped} {k : Line}
    (h : lookupE g₁ k = none) : lookupE (g₁ ++ g₂) k = lookupE g₂ k := by
  induction g₁ with
  | nil => simp [lookupE]
  | cons kv g₁ ih =>
    obtain ⟨k₁, e₁⟩ := kv
    by_cases hk : k₁ = k
    · rw [lookupE, if_pos hk] at h
      simp at h
    · rw [lookupE, if_neg hk] at h
      simp [lookupE, hk, ih h]

theorem lookupE_map_update_ne {g : Grouped} {key k : Line} {f : GroupEntry → GroupEntry}
    (h : k ≠ key) :
    lookupE (g.map (fun kv => if kv.1 = key then (kv.1, f kv.2) else kv)) k
      = lookupE g k := by
  induction g with
  | nil => simp [lookupE]
  | cons kv g ih =>
    obtain ⟨k₁, e₁⟩ := kv
    simp only [List.map_cons]
    by_cases hkey : k₁ = key
    · subst hkey
      have hhead : (if (k₁, e₁).1 = k₁ then ((k₁, e₁).1, f (k₁, e₁).2) else (k₁, e₁))
          = (k₁, f e₁) := if_pos rfl
      rw [hhead]
      have hk : ¬k₁ = k := fun he => h he.symm
      simp [lookupE, hk, ih]
    · have hhead : (if (k₁, e₁).1 = key then ((k₁, e₁).1, f (k₁, e₁).2) else (k₁, e₁))
          = (k₁, e₁) := if_neg hkey
      rw [hhead]
      by_cases hk : k₁ = k
      · simp [lookupE, hk]
      · simp [lookupE, hk, ih]

theorem lookupE_map_update_eq {g : Grouped} {key : Line} {f : GroupEntry → GroupEntry} :
    lookupE (g.map (fun kv => if kv.1 = key then (kv.1, f kv.2) else kv)) key
      = (lookupE g key).map f := by
  induction g with
  | nil => simp [lookupE]
  | cons kv g ih =>
    obtain ⟨k₁, e₁⟩ := kv
    simp only [List.map_cons]
    by_cases hk : k₁ = key
    · subst hk
      have hhead : (if (k₁, e₁).1 = k₁ then ((k₁, e₁).1, f (k₁, e₁).2) else (k₁, e₁))
          = (k₁, f e₁) := if_pos rfl
      rw [hhead]
      simp [lookupE]
    · have hhead : (if (k₁, e₁).1 = key then ((k₁, e₁).1, f (k₁, e₁).2) else (k₁, e₁))
          = (k₁, e₁) := if_neg hk
      rw [hhead]
      simp [lookupE, hk, ih]

/-- One accumulation step seen through the lens of a single key. -/
theorem lookupE_group_step (acc : Grouped) (tr : TaskResult) (k : Line) :
    lookupE (group_step acc tr) k = bucketStep k (lookupE acc k) tr := by
  unfold group_step bucketStep
  by_cases hp : (lookupE acc (group_key tr)).isSome
  · rw [if_pos hp]
    by_cases hk : group_key tr = k
    · subst hk
      rw [if_pos rfl, lookupE_map_update_eq]
      cases h : lookupE acc (group_key tr) with
      | none => rw [h] at hp; simp at hp
      | some e => simp
    · rw [if_neg hk, lookupE_map_update_ne (fun he => hk he.symm)]
  · rw [if_neg hp]
    have hnone : lookupE acc (group_key tr) = none := by
      cases h : lookupE acc (group_key tr) with
      | none => rfl
      | some e => rw [h] at hp; simp at hp
    by_cases hk : group_key tr = k
    · subst hk
      rw [if_pos rfl, lookupE_append_of_none hnone, hnone]
      simp [lookupE]
    · rw [if_neg hk]
      cases h : lookupE acc k with
      | none =>
        rw [lookupE_append_of_none h]
        simp [lookupE, hk]
      | some e =>
        rw [lookupE_append_of_isSome (by rw [h]; rfl), h]

/-- The whole accumulation fold seen through the lens of a single key. -/
theorem lookupE_foldl (trs : List TaskResult) :
    ∀ (acc : Grouped) (k : Line),
      lookupE (trs.foldl group_step acc) k
        = trs.foldl (bucketStep k) (lookupE acc k) := by
  induction trs with
  | nil => intro acc k; rfl
  | cons tr trs ih =>
    intro acc k
    rw [List.foldl_cons, List.foldl_cons, ih, lookupE_group_step]

/-- Total accumulated minutes (truncating `int(delta_seconds / 60)`) of the
results grouped under key `k`. -/
def minsSum (k : Line) (trs : List TaskResult) : Int :=
  ((trs.filter (fun tr => group_key tr = k)).map (fun tr => tr.delta_seconds.tdiv 60)).sum

theorem descs_mem_addDesc {descs : List Line} {d x : Line} :
    d ∈ addDesc descs x ↔ d ∈ descs ∨ d = x := by
  unfold addDesc
  by_cases h : x ∈ descs
  · simp only [if_pos h]
    constructor
    · exact fun hd => Or.inl hd
    · rintro (hd | rfl) <;> assumption
  · simp [if_neg h]

theorem bucketFold_none {k : Line} {trs : List TaskResult}
    (h : ∀ tr ∈ trs, group_key tr ≠ k) :
    trs.foldl (bucketStep k) none = none := by
  induction trs with
  | nil => rfl
  | cons tr trs ih =>
    rw [List.foldl_cons]
    rw [show bucketStep k none tr = none by
      unfold bucketStep
      rw [if_neg (h tr (List.mem_cons_self _ _))]]
    exact ih (fun x hx => h x (List.mem_cons_of_mem _ hx))

theorem bucketFold_isSome {k : Line} (trs : List TaskResult) (e : GroupEntry) :
    ∃ e', trs.foldl (bucketStep k) (some e) = some e' := by
  induction trs generalizing e with
  | nil => exact ⟨e, rfl⟩
  | cons tr trs ih =>
    rw [List.foldl_cons]
    unfold bucketStep
    by_cases h : group_key tr = k
    · rw [if_pos h]
      exact ih _
    · rw [if_neg h]
      exact ih _

/-- Value characterization of the one-key fold: the final bucket's
accumulated minutes extend the initial ones by the contributors' minutes,
and its description set collects exactly the non-empty descriptions of the
contributors (on top of the initial ones). -/
theorem bucketFold_some {k : Line} (trs : List TaskResult) :
    ∀ (o : Option GroupEntry) (e' : GroupEntry),
      trs.foldl (bucketStep k) o = some e' →
        e'.delta = (match o with | some e => e.delta | none => 0) + minsSum k trs
          ∧ (∀ d, d ∈ e'.descs ↔
              (∃ e, o = some e ∧ d ∈ e.descs)
                ∨ (d ≠ [] ∧ ∃ tr ∈ trs, group_key tr = k ∧ tr.desc = d)) := by
  induction trs with
  | nil =>
    intro o e' h
    cases o with
    | none => simp at h
    | some e =>
      simp only [List.foldl_nil, Option.some.injEq] at h
      subst h
      constructor
      · simp [minsSum]
      · intro d
        simp
  | cons tr trs ih =>
    intro o e' h
    rw [List.foldl_cons] at h
    by_cases hk : group_key tr = k
    · rw [show bucketStep k o tr = some (entryAdd tr (o.getD (initEntry tr))) by
        unfold bucketStep; rw [if_pos hk]] at h
      obtain ⟨hdelta, hdescs⟩ := ih _ _ h
      have hmins : minsSum k (tr :: trs) = tr.delta_seconds.tdiv 60 + minsSum k trs := by
        simp [minsSum, List.filter_cons, hk]
      constructor
      · rw [hdelta, hmins]
        cases o with
        | none => simp [entryAdd, initEntry]
        | some e =>
          simp [entryAdd]
          ring
      · intro d
        rw [hdescs d]
        constructor
        · rintro (⟨e₀, he₀, hd⟩ | ⟨hne, tr', htr', hkey', hdesc'⟩)
          · rw [Option.some.injEq] at he₀
            subst he₀
            by_cases hemp : tr.desc.isEmpty
            · rw [show (entryAdd tr (o.getD (initEntry tr))).descs
                  = (o.getD (initEntry tr)).descs by simp [entryAdd, hemp]] at hd
              cases o with
              | none => simp [initEntry] at hd
              | some e => exact Or.inl ⟨e, rfl, hd⟩
            · rw [show (entryAdd tr (o.getD (initEntry tr))).descs
                  = addDesc (o.getD (initEntry tr)).descs tr.desc by
                    simp [entryAdd, hemp]] at hd
              rcases descs_mem_addDesc.mp hd with hd' | rfl
              · cases o with
                | none => simp [initEntry] at hd'
                | some e => exact Or.inl ⟨e, rfl, hd'⟩
              · refine Or.inr ⟨?_, tr, List.mem_cons_self _ _, hk, rfl⟩
                intro he
                rw [he] at hemp
                simp at hemp
          · exact Or.inr ⟨hne, tr', List.mem_cons_of_mem _ htr', hkey', hdesc'⟩
        · rintro (⟨e₀, he₀, hd⟩ | ⟨hne, tr', htr', hkey', hdesc'⟩)
          · cases o with
            | none => simp at he₀
            | some e =>
              rw [Option.some.injEq] at he₀
              subst he₀
              refine Or.inl ⟨entryAdd tr ((some e).getD (initEntry tr)), rfl, ?_⟩
              by_cases hemp : tr.desc.isEmpty
              · simpa [entryAdd, hemp] using hd
              · rw [show (entryAdd tr ((some e).getD (initEntry tr))).descs
                    = addDesc e.descs tr.desc by simp [entryAdd, hemp]]
                exact descs_mem_addDesc.mpr (Or.inl hd)
          · rcases List.mem_cons.mp htr' with rfl | htl
            · subst hdesc'
              refine Or.inl ⟨entryAdd tr' (o.getD (initEntry tr')), rfl, ?_⟩
              have hemp : ¬tr'.desc.isEmpty = true := by
                intro he
                exact hne (List.isEmpty_iff.mp he)
              rw [show (entryAdd tr' (o.getD (initEntry tr'))).descs
                  = addDesc (o.getD (initEntry tr')).descs tr'.desc by
                    simp [entryAdd, hemp]]
              exact descs_mem_addDesc.mpr (Or.inr rfl)
            · exact Or.inr ⟨hne, tr', htl, hkey', hdesc'⟩
    · rw [show bucketStep k o tr = o by unfold bucketStep; rw [if_neg hk]] at h
      obtain ⟨hdelta, hdescs⟩ := ih _ _ h
      have hmins : minsSum k (tr :: trs) = minsSum k trs := by
        simp [minsSum, List.filter_cons, hk]
      refine ⟨by rw [hdelta, hmins], ?_⟩
      intro d
      rw [hdescs d]
      constructor
      · rintro (h1 | ⟨hne, tr', htr', hkey', hdesc'⟩)
        · exact Or.inl h1
        · exact Or.inr ⟨hne, tr', List.mem_cons_of_mem _ htr', hkey', hdesc'⟩
      · rintro (h1 | ⟨hne, tr', htr', hkey', hdesc'⟩)
        · exact Or.inl h1
        · rcases List.mem_cons.mp htr' with rfl | htl
          · exact absurd hkey' hk
          · exact Or.inr ⟨hne, tr', htl, hkey', hdesc'⟩

theorem keys_group_step (acc : Grouped) (tr : TaskResult) :
    (group_step acc tr).map Prod.fst
      = if (lookupE acc (group_key tr)).isSome then acc.map Prod.fst
        else acc.map Prod.fst ++ [group_key tr] := by
  unfold group_step
  by_cases hp : (lookupE acc (group_key tr)).isSome
  · rw [if_pos hp, if_pos hp, List.map_map]
    refine List.map_congr_left ?_
    intro kv _
    by_cases hk : kv.1 = group_key tr
    · simp [Function.comp, hk]
    · simp [Function.comp, hk]
  · rw [if_neg hp, if_neg hp, List.map_append]
    rfl

theorem keys_foldl_nodup (trs : List TaskResult) :
    ∀ acc : Grouped, (acc.map Prod.fst).Nodup →
      ((trs.foldl group_step acc).map Prod.fst).Nodup := by
  induction trs with
  | nil => exact fun acc h => h
  | cons tr trs ih =>
    intro acc h
    rw [List.foldl_cons]
    refine ih _ ?_
    rw [keys_group_step]
    by_cases hp : (lookupE acc (group_key tr)).isSome
    · rwa [if_pos hp]
    · rw [if_neg hp]
      have hnone : lookupE acc (group_key tr) = none := by
        cases hq : lookupE acc (group_key tr) with
        | none => rfl
        | some e => rw [hq] at hp; simp at hp
      refine List.nodup_append.mpr ⟨h, List.nodup_singleton _, ?_⟩
      intro x hx hx'
      rw [List.mem_singleton.mp hx'] at hx
      exact (lookupE_eq_none.mp hnone) hx

theorem mem_iff_lookupE {g : Grouped} (hg : (g.map Prod.fst).Nodup) {k : Line}
    {e : GroupEntry} : (k, e) ∈ g ↔ lookupE g k = some e := by
  induction g with
  | nil => simp [lookupE]
  | cons kv g ih =>
    obtain ⟨k₁, e₁⟩ := kv
    simp only [List.map_cons, List.nodup_cons] at hg
    by_cases hk : k₁ = k
    · subst hk
      rw [lookupE, if_pos rfl]
      constructor
      · intro h
        rcases List.mem_cons.mp h with h1 | h1
        · rw [Prod.mk.injEq] at h1
          rw [h1.2]
        · exact absurd (List.mem_map.mpr ⟨(k₁, e), h1, rfl⟩) hg.1
      · intro h
        rw [Option.some.injEq] at h
        subst h
        exact List.mem_cons_self _ _
    · rw [lookupE, if_neg hk]
      constructor
      · intro h
        rcases List.mem_cons.mp h with h1 | h1
        · rw [Prod.mk.injEq] at h1
          exact absurd h1.1.symm hk
        · exact (ih hg.2).mp h1
      · intro h
        exact List.mem_cons_of_mem _ ((ih hg.2).mpr h)

theorem group_tasks_keys_eq (trs : List TaskResult) :
    (group_tasks trs).map Prod.fst = (trs.foldl group_step []).map Prod.fst := by
  unfold group_tasks
  rw [List.map_map]
  exact List.map_congr_left (fun kv _ => rfl)

theorem mem_group_tasks {trs : List TaskResult} {k : Line} {e : GroupEntry} :
    (k, e) ∈ group_tasks trs
      ↔ ∃ e₀, (k, e₀) ∈ trs.foldl group_step [] ∧ e = finalizeEntry e₀ := by
  unfold group_tasks
  constructor
  · intro h
    obtain ⟨kv, hkv, heq⟩ := List.mem_map.mp h
    rw [Prod.mk.injEq] at heq
    exact ⟨kv.2, by rw [← heq.1]; exact hkv, heq.2.symm⟩
  · rintro ⟨e₀, he₀, rfl⟩
    exact List.mem_map.mpr ⟨(k, e₀), he₀, rfl⟩

theorem bucketFold_eq_none {k : Line} :
    ∀ (trs : List TaskResult) (o : Option GroupEntry),
      trs.foldl (bucketStep k) o = none → o = none ∧ ∀ tr ∈ trs, group_key tr ≠ k := by
  intro trs
  induction trs with
  | nil => exact fun o h => ⟨h, by simp⟩
  | cons tr trs ih =>
    intro o h
    rw [List.foldl_cons] at h
    obtain ⟨hstep, htail⟩ := ih _ h
    have hkey : group_key tr ≠ k := by
      intro hk
      rw [show bucketStep k o tr = some (entryAdd tr (o.getD (initEntry tr))) by
        unfold bucketStep; rw [if_pos hk]] at hstep
      exact Option.some_ne_none _ hstep
    have ho : o = none := by
      rw [show bucketStep k o tr = o by unfold bucketStep; rw [if_neg hkey]] at hstep
      exact hstep
    refine ⟨ho, ?_⟩
    intro x hx
    rcases List.mem_cons.mp hx with rfl | hx'
    · exact hkey
    · exact htail x hx'

/-- Claim C2: `group_tasks` buckets task results by the documented key
(task id + description when a task id is present, else the description,
else the `"#no-desc"` sentinel), produces one bucket per distinct key, and
each bucket totals the floor-divided minutes of its contributors, collects
their distinct non-empty descriptions, and carries the rounded decimal
hours of its total minutes; the two-line example yields exactly one bucket
with task id `"12345"`, 60 minutes and 1.0 rounded hours.  (The hypotheses
restate the claim's `delta_seconds ≥ 0` bound and the data model's shape
of task ids — absent or a 5-digit string, hence never the empty string.) -/
theorem group_tasks_spec (trs : List TaskResult)
    (hds : ∀ tr ∈ trs, 0 ≤ tr.delta_seconds)
    (hid : ∀ tr ∈ trs, tr.task_id ≠ some ([] : Line)) :
    (∀ tr ∈ trs, group_key tr = match tr.task_id with
        | some t => t ++ ' ' :: tr.desc
        | none => if tr.desc = [] then "#no-desc".data else tr.desc)
      ∧ ((group_tasks trs).map Prod.fst).Nodup
      ∧ (∀ k, k ∈ (group_tasks trs).map Prod.fst ↔ ∃ tr ∈ trs, group_key tr = k)
      ∧ (∀ k e, (k, e) ∈ group_tasks trs →
          e.task_total_mins = ((trs.filter (fun tr => group_key tr = k)).map
              (fun tr => tr.delta_seconds.fdiv 60)).sum
            ∧ (∀ d, d ∈ e.descs ↔ d ≠ [] ∧ ∃ tr ∈ trs, group_key tr = k ∧ tr.desc = d)
            ∧ e.rounded_hours = minutes_to_rounded_decimal_hours e.task_total_mins)
      ∧ (get_timestamps ["08:00 12345 Task A".data, "09:00 12345 Task A".data]
            = some [480, 540]
          ∧ group_tasks (get_tasks_results (get_deltas [480, 540])
                ["08:00 12345 Task A".data, "09:00 12345 Task A".data])
              = [("12345 Task A".data,
                  { delta := 60, descs := ["Task A".data], task_id := some "12345".data,
                    task_total_mins := 60, task_total_hours := 1, task_total_rest := 0,
                    rounded_hours := 1 })]) := by
  have hnodup : ((group_tasks trs).map Prod.fst).Nodup := by
    rw [group_tasks_keys_eq]
    exact keys_foldl_nodup trs [] (by simp)
  have hfold : ∀ k, lookupE (trs.foldl group_step []) k = trs.foldl (bucketStep k) none :=
    fun k => lookupE_foldl trs [] k
  refine ⟨?_, hnodup, ?_, ?_, by decide, ?_⟩
  · intro tr htr
    cases h : tr.task_id with
    | none =>
      cases hdesc : tr.desc with
      | nil => simp [group_key, truthy, h, hdesc]
      | cons c cs => simp [group_key, truthy, h, hdesc]
    | some t =>
      cases t with
      | nil => exact absurd h (hid tr htr)
      | cons c cs => simp [group_key, truthy, h]
  · intro k
    rw [group_tasks_keys_eq]
    constructor
    · intro hk
      have hne : lookupE (trs.foldl group_step []) k ≠ none := by
        rw [Ne, lookupE_eq_none]
        exact fun hno => hno hk
      rw [hfold k] at hne
      by_contra hno
      push_neg at hno
      exact hne (bucketFold_none (fun tr htr => hno tr htr))
    · rintro ⟨tr, htr, hkey⟩
      by_contra hk
      have hnone : lookupE (trs.foldl group_step []) k = none := lookupE_eq_none.mpr hk
      rw [hfold k] at hnone
      exact (bucketFold_eq_none trs none hnone).2 tr htr hkey
  · intro k e he
    obtain ⟨e₀, he₀, rfl⟩ := mem_group_tasks.mp he
    have hnodup₀ : ((trs.foldl group_step []).map Prod.fst).Nodup :=
      keys_foldl_nodup trs [] (by simp)
    have hlook : lookupE (trs.foldl group_step []) k = some e₀ :=
      (mem_iff_lookupE hnodup₀).mp he₀
    rw [hfold k] at hlook
    obtain ⟨hdelta, hdescs⟩ := bucketFold_some trs none e₀ hlook
    have hmins : (finalizeEntry e₀).task_total_mins = minsSum k trs := by
      simpa [finalizeEntry] using hdelta
    refine ⟨?_, ?_, rfl⟩
    · rw [hmins]
      unfold minsSum
      refine congrArg List.sum (List.map_congr_left ?_)
      intro tr htr
      have hmem := (List.mem_filter.mp htr).1
      have h0 : (0 : ℤ) ≤ tr.delta_seconds := hds tr hmem
      rw [Int.tdiv_eq_ediv h0 (by norm_num), Int.fdiv_eq_ediv _ (by norm_num)]
    · intro d
      have : (finalizeEntry e₀).descs = e₀.descs := rfl
      rw [this, hdescs d]
      constructor
      · rintro (⟨e₁, he₁, _⟩ | h1)
        · exact absurd he₁ (Option.some_ne_none e₁).symm
        · exact h1
      · exact fun h1 => Or.inr h1
  · rw [show group_tasks (get_tasks_results (get_deltas [480, 540])
          ["08:00 12345 Task A".data, "09:00 12345 Task A".data])
        = [("12345 Task A".data,
            { delta := 60, descs := ["Task A".data], task_id := some "12345".data,
              task_total_mins := 60, task_total_hours := 1, task_total_rest := 0,
              rounded_hours := minutes_to_rounded_decimal_hours 60 })] from rfl,
      mrdh_val60]

/-- Claim C2 witness: the characterization applied to a concrete two-result
list with non-negative deltas and well-formed task ids. -/
theorem group_tasks_spec_witness :
    (∀ tr ∈ [TaskResult.mk (some "12345".data) 3600 "Task A".data,
        TaskResult.mk none 1800 "#lunch".data], 0 ≤ tr.delta_seconds)
      ∧ (∀ tr ∈ [TaskResult.mk (some "12345".data) 3600 "Task A".data,
          TaskResult.mk none 1800 "#lunch".data], tr.task_id ≠ some ([] : Line))
      ∧ ((group_tasks [TaskResult.mk (some "12345".data) 3600 "Task A".data,
          TaskResult.mk none 1800 "#lunch".data]).map Prod.fst).Nodup := by
  refine ⟨by decide, by decide, ?_⟩
  exact (group_tasks_spec _ (by decide) (by decide)).2.1

theorem aux_cons_none {deltas : List Int} {n : Nat} {l : Line} {ls : List Line}
    (hp : parse_line l = none) :
    get_tasks_results_aux deltas n (l :: ls) = get_tasks_results_aux deltas (n + 1) ls := by
  simp only [get_tasks_results_aux, hp]

theorem aux_cons_some_lt {deltas : List Int} {n : Nat} {l : Line} {ls : List Line}
    {p : Parsed} (hp : parse_line l = some p) (hn : n < deltas.length) :
    get_tasks_results_aux deltas n (l :: ls)
      = ⟨p.taskId, deltas[n]!, p.desc⟩ :: get_tasks_results_aux deltas (n + 1) ls := by
  simp only [get_tasks_results_aux, hp]
  rw [if_pos hn]

theorem aux_cons_some_ge {deltas : List Int} {n : Nat} {l : Line} {ls : List Line}
    {p : Parsed} (hp : parse_line l = some p) (hn : ¬n < deltas.length) :
    get_tasks_results_aux deltas n (l :: ls) = [] := by
  simp only [get_tasks_results_aux, hp]
  rw [if_neg hn]

theorem get_tasks_results_aux_eq (deltas : List Int) :
    ∀ (ls : List Line) (n : Nat),
      get_tasks_results_aux deltas n ls = (List.enumFrom n ls).filterMap (emitAt deltas) := by
  intro ls
  induction ls with
  | nil => intro n; rfl
  | cons l ls ih =>
    intro n
    rw [List.enumFrom_cons, List.filterMap_cons]
    cases hp : parse_line l with
    | none =>
      rw [show emitAt deltas (n, l) = none by simp [emitAt, hp]]
      rw [aux_cons_none hp]
      exact ih (n + 1)
    | some p =>
      by_cases hn : n < deltas.length
      · rw [show emitAt deltas (n, l) = some ⟨p.taskId, deltas[n]!, p.desc⟩ by
          simp [emitAt, hp, hn]]
        rw [aux_cons_some_lt hp hn, ih (n + 1)]
      · rw [show emitAt deltas (n, l) = none by simp [emitAt, hp, hn]]
        rw [aux_cons_some_ge hp hn]
        rw [eq_comm, List.filterMap_eq_nil_iff]
        intro il hil
        obtain ⟨j, x⟩ := il
        have hj := List.mem_enumFrom hil
        unfold emitAt
        cases hq : parse_line x with
        | none => rfl
        | some q =>
          simp only []
          rw [if_neg (by omega)]

/-- Length of the task-result list when every line parses: one result per
line index below `len(deltas)`. -/
theorem get_tasks_results_aux_length (deltas : List Int) :
    ∀ (ls : List Line) (n : Nat), (∀ l ∈ ls, (parse_line l).isSome = true) →
      (get_tasks_results_aux deltas n ls).length = min (deltas.length - n) ls.length := by
  intro ls
  induction ls with
  | nil => intro n _; simp [get_tasks_results_aux]
  | cons l ls ih =>
    intro n hall
    obtain ⟨p, hp⟩ := Option.isSome_iff_exists.mp (hall l (List.mem_cons_self _ _))
    have ihn := ih (n + 1) (fun x hx => hall x (List.mem_cons_of_mem _ hx))
    by_cases hn : n < deltas.length
    · rw [aux_cons_some_lt hp hn, List.length_cons, ihn, List.length_cons]
      omega
    · rw [aux_cons_some_ge hp hn]
      simp only [List.length_nil, List.length_cons]
      omega

/-- Element `j` of the task-result list when every line parses: the parse
of line `n + j` paired with `delta[n + j]`. -/
theorem get_tasks_results_aux_get (deltas : List Int) :
    ∀ (ls : List Line) (n j : Nat), (∀ l ∈ ls, (parse_line l).isSome = true) →
      ∀ (hj : j < ls.length) (hnj : n + j < deltas.length)
        (hlen : j < (get_tasks_results_aux deltas n ls).length),
        ∃ p, parse_line (ls.get ⟨j, hj⟩) = some p
          ∧ (get_tasks_results_aux deltas n ls).get ⟨j, hlen⟩
            = ⟨p.taskId, deltas.get ⟨n + j, hnj⟩, p.desc⟩ := by
  intro ls
  induction ls with
  | nil => intro n j _ hj; simp at hj
  | cons l ls ih =>
    intro n j hall hj hnj hlen
    obtain ⟨p, hp⟩ := Option.isSome_iff_exists.mp (hall l (List.mem_cons_self _ _))
    have hn : n < deltas.length := by omega
    have haux : get_tasks_results_aux deltas n (l :: ls)
        = ⟨p.taskId, deltas[n]!, p.desc⟩ :: get_tasks_results_aux deltas (n + 1) ls :=
      aux_cons_some_lt hp hn
    cases j with
    | zero =>
      refine ⟨p, hp, ?_⟩
      have hget : (get_tasks_results_aux deltas n (l :: ls)).get ⟨0, hlen⟩
          = ⟨p.taskId, deltas[n]!, p.desc⟩ := by
        rw [List.get_eq_getElem]
        simp only [haux, List.getElem_cons_zero]
      rw [hget]
      have hfin : (⟨n + 0, hnj⟩ : Fin deltas.length) = ⟨n, hn⟩ := by
        simp only [Fin.mk.injEq]
        omega
      have hdn : deltas[n]! = deltas.get ⟨n + 0, hnj⟩ := by
        rw [hfin, List.get_eq_getElem, getElem!_pos deltas n hn]
      rw [hdn]
    | succ j' =>
      have hj' : j' < ls.length := by simpa using hj
      have hnj' : (n + 1) + j' < deltas.length := by omega
      have hlen' : j' < (get_tasks_results_aux deltas (n + 1) ls).length := by
        have := hlen
        rw [haux, List.length_cons] at this
        omega
      obtain ⟨q, hq, hval⟩ := ih (n + 1) j'
        (fun x hx => hall x (List.mem_cons_of_mem _ hx)) hj' hnj' hlen'
      refine ⟨q, ?_, ?_⟩
      · rw [show (l :: ls).get ⟨j' + 1, hj⟩ = ls.get ⟨j', hj'⟩ by
          rw [List.get_eq_getElem, List.get_eq_getElem, List.getElem_cons_succ]]
        exact hq
      · have hstep : (get_tasks_results_aux deltas n (l :: ls)).get ⟨j' + 1, hlen⟩
            = (get_tasks_results_aux deltas (n + 1) ls).get ⟨j', hlen'⟩ := by
          rw [List.get_eq_getElem, List.get_eq_getElem]
          simp only [haux, List.getElem_cons_succ]
        rw [hstep, hval]
        have hfin : (⟨n + 1 + j', hnj'⟩ : Fin deltas.length) = ⟨n + (j' + 1), hnj⟩ := by
          simp only [Fin.mk.injEq]
          omega
        rw [hfin]

theorem get_timestamps_length :
    ∀ (ls : List Line) (ts : List Nat), (∀ l ∈ ls, (parse_line l).isSome = true) →
      get_timestamps ls = some ts → ts.length = ls.length := by
  intro ls
  induction ls with
  | nil =>
    intro ts _ h
    rw [show get_timestamps [] = some [] from rfl, Option.some.injEq] at h
    rw [← h]
    rfl
  | cons l ls ih =>
    intro ts hall h
    obtain ⟨p, hp⟩ := Option.isSome_iff_exists.mp (hall l (List.mem_cons_self _ _))
    cases hmk : mk_datetime (digitsVal p.hourDigits) (digitsVal p.minuteDigits) with
    | none =>
      rw [show get_timestamps (l :: ls) = none by
        simp only [get_timestamps, hp, hmk]] at h
      exact absurd h (by simp)
    | some t =>
      rw [show get_timestamps (l :: ls) = (get_timestamps ls).map (t :: ·) by
        simp only [get_timestamps, hp, hmk]] at h
      obtain ⟨ts', hts', rfl⟩ := Option.map_eq_some'.mp h
      rw [List.length_cons, List.length_cons,
        ih ts' (fun x hx => hall x (List.mem_cons_of_mem _ hx)) hts']

theorem get_deltas_length : ∀ ts : List Nat, (get_deltas ts).length = ts.length - 1 := by
  intro ts
  induction ts with
  | nil => rfl
  | cons t tail ih =>
    cases tail with
    | nil => rfl
    | cons t2 r =>
      rw [show get_deltas (t :: t2 :: r) = ((t2 : Int) - (t : Int)) * 60 :: get_deltas (t2 :: r)
        from rfl]
      rw [List.length_cons, ih]
      simp only [List.length_cons]
      omega

theorem get_deltas_get :
    ∀ (ts : List Nat) (i : Nat) (h2 : i + 1 < ts.length) (h3 : i < ts.length)
      (hd : i < (get_deltas ts).length),
      (get_deltas ts).get ⟨i, hd⟩
        = ((ts.get ⟨i + 1, h2⟩ : Int) - (ts.get ⟨i, h3⟩ : Int)) * 60 := by
  intro ts
  induction ts with
  | nil =>
    intro i h2
    simp at h2
  | cons t tail ih =>
    intro i h2 h3 hd
    cases tail with
    | nil =>
      simp only [List.length_cons, List.length_nil] at h2
      omega
    | cons t2 r =>
      cases i with
      | zero =>
        rfl
      | succ i' =>
        have h2' : i' + 1 < (t2 :: r).length := by
          simp only [List.length_cons] at h2 ⊢
          omega
        have h3' : i' < (t2 :: r).length := by
          simp only [List.length_cons] at h3 ⊢
          omega
        have hd' : i' < (get_deltas (t2 :: r)).length := by
          rw [get_deltas_length] at hd ⊢
          simp only [List.length_cons] at hd ⊢
          omega
        have hstep : (get_deltas (t :: t2 :: r)).get ⟨i' + 1, hd⟩
            = (get_deltas (t2 :: r)).get ⟨i', hd'⟩ := by
          show (((t2 : Int) - (t : Int)) * 60 :: get_deltas (t2 :: r)).get ⟨i' + 1, _⟩
            = (get_deltas (t2 :: r)).get ⟨i', hd'⟩
          rw [List.get_eq_getElem, List.getElem_cons_succ]
          exact (List.get_eq_getElem (get_deltas (t2 :: r)) ⟨i', hd'⟩).symm
        rw [hstep, ih i' h2' h3' hd']
        rfl

/-- Claim C1 as amended: `get_tasks_results` emits one `TaskResult` exactly
for each line at position `i < len(deltas)` that parses, carrying
`delta[i]` (first conjunct, the spec's emission contract, for every
`deltas` and `lines`); and — provided every line parses, so that line
positions coincide with timestamp positions — when the deltas come from
`get_deltas` of `get_timestamps`, the `i`-th emitted result is line `i`'s
parse carrying the seconds from that line's own timestamp `ts[i]` to the
next matched line's timestamp `ts[i+1]` (second conjunct).  Without the
all-lines-parse proviso the timestamp correspondence fails, see the
counterexample. -/
theorem get_tasks_results_spec (deltas : List Int) (lines : List Line) :
    get_tasks_results deltas lines = tasksResultsSpec deltas lines
      ∧ (∀ ts : List Nat, (∀ l ∈ lines, (parse_line l).isSome = true) →
          get_timestamps lines = some ts →
          ∀ (i : Nat) (h1 : i < (get_tasks_results (get_deltas ts) lines).length),
            ∃ (h2 : i + 1 < ts.length) (h3 : i < ts.length) (h4 : i < lines.length)
              (p : Parsed),
              parse_line (lines.get ⟨i, h4⟩) = some p
                ∧ (get_tasks_results (get_deltas ts) lines).get ⟨i, h1⟩
                  = ⟨p.taskId,
                      ((ts.get ⟨i + 1, h2⟩ : Int) - (ts.get ⟨i, h3⟩ : Int)) * 60,
                      p.desc⟩) := by
  constructor
  · rw [show get_tasks_results deltas lines = get_tasks_results_aux deltas 0 lines from rfl,
      get_tasks_results_aux_eq]
    rfl
  · intro ts hall hts i h1
    have hlents : ts.length = lines.length := get_timestamps_length lines ts hall hts
    have hlenres : (get_tasks_results (get_deltas ts) lines).length
        = min ((get_deltas ts).length - 0) lines.length :=
      get_tasks_results_aux_length (get_deltas ts) lines 0 hall
    have hdl : (get_deltas ts).length = ts.length - 1 := get_deltas_length ts
    have h2 : i + 1 < ts.length := by omega
    have h3 : i < ts.length := by omega
    have h4 : i < lines.length := by omega
    have hnj : 0 + i < (get_deltas ts).length := by omega
    obtain ⟨p, hp, hval⟩ :=
      get_tasks_results_aux_get (get_deltas ts) lines 0 i hall h4 hnj h1
    refine ⟨h2, h3, h4, p, hp, ?_⟩
    show (get_tasks_results_aux (get_deltas ts) 0 lines).get ⟨i, h1⟩
      = (⟨p.taskId, ((ts.get ⟨i + 1, h2⟩ : Int) - (ts.get ⟨i, h3⟩ : Int)) * 60,
          p.desc⟩ : TaskResult)
    rw [hval]
    have hdi : i < (get_deltas ts).length := by omega
    have hfin : (⟨0 + i, hnj⟩ : Fin (get_deltas ts).length) = ⟨i, hdi⟩ := by
      simp only [Fin.mk.injEq]
      omega
    rw [hfin, get_deltas_get ts i h2 h3 hdi]

/-- Claim C1, counterexample to the claim as stated: with the lines
`["x", "8:00 a", "9:00 b", "11:00 c"]` the unparsable first line shifts
the enumeration index past the timestamp index, so the single emitted
`TaskResult` (for line `"8:00 a"`) carries `delta[1] = 7200` s even though
the time from that line's own timestamp (08:00) to the next matched line's
timestamp (09:00) is `3600` s. -/
theorem get_tasks_results_misaligned :
    get_timestamps ["x".data, "8:00 a".data, "9:00 b".data, "11:00 c".data]
        = some [480, 540, 660]
      ∧ get_tasks_results (get_deltas [480, 540, 660])
          ["x".data, "8:00 a".data, "9:00 b".data, "11:00 c".data]
        = [⟨none, 7200, "a".data⟩]
      ∧ ((540 : Int) - 480) * 60 = 3600
      ∧ (7200 : Int) ≠ 3600 := by
  exact ⟨by decide, by decide, by decide, by decide⟩

/-- Claim C1 witness: three parsed lines produce two results, and the
first emitted result carries the 30 minutes from 08:00 to 08:30. -/
theorem get_tasks_results_spec_witness :
    (∀ l ∈ ["8:00 a".data, "8:30 b".data, "9:45 c".data], (parse_line l).isSome = true)
      ∧ get_timestamps ["8:00 a".data, "8:30 b".data, "9:45 c".data]
          = some [480, 510, 585]
      ∧ (∀ (i : Nat)
          (h1 : i < (get_tasks_results (get_deltas ([480, 510, 585] : List Nat))
            ["8:00 a".data, "8:30 b".data, "9:45 c".data]).length),
          ∃ (h2 : i + 1 < ([480, 510, 585] : List Nat).length)
            (h3 : i < ([480, 510, 585] : List Nat).length)
            (h4 : i < ["8:00 a".data, "8:30 b".data, "9:45 c".data].length)
            (p : Parsed),
            parse_line (["8:00 a".data, "8:30 b".data, "9:45 c".data].get ⟨i, h4⟩) = some p
              ∧ (get_tasks_results (get_deltas ([480, 510, 585] : List Nat))
                  ["8:00 a".data, "8:30 b".data, "9:45 c".data]).get ⟨i, h1⟩
                = ⟨p.taskId,
                    ((([480, 510, 585] : List Nat).get ⟨i + 1, h2⟩ : Int)
                      - (([480, 510, 585] : List Nat).get ⟨i, h3⟩ : Int)) * 60,
                    p.desc⟩) := by
  refine ⟨by decide, by decide, ?_⟩
  exact (get_tasks_results_spec (get_deltas ([480, 510, 585] : List Nat))
    ["8:00 a".data, "8:30 b".data, "9:45 c".data]).2 [480, 510, 585] (by decide) (by decide)

theorem digit_not_space {c : Char} (h : pyDigit c = true) : pySpace c = false := by
  unfold pyDigit Char.isDigit at h
  rw [Bool.and_eq_true, decide_eq_true_eq, decide_eq_true_eq] at h
  unfold pySpace
  simp only [Bool.or_eq_false_iff]
  refine ⟨⟨⟨⟨⟨?_, ?_⟩, ?_⟩, ?_⟩, ?_⟩, ?_⟩ <;>
    (rw [beq_eq_false_iff_ne]
     rintro rfl
     exact absurd h (by decide))

theorem takeWhile_append_all {q : Char → Bool} {xs : Line} {c : Char} {r : Line}
    (hall : ∀ x ∈ xs, q x = true) (hc : q c = false) :
    (xs ++ c :: r).takeWhile q = xs := by
  induction xs with
  | nil => simp [List.takeWhile_cons, hc]
  | cons x xs ih =>
    rw [List.cons_append, List.takeWhile_cons, hall x (List.mem_cons_self _ _)]
    rw [ih (fun y hy => hall y (List.mem_cons_of_mem _ hy))]
    simp

theorem dropWhile_idem {q : Char → Bool} {l : Line} :
    (l.dropWhile q).dropWhile q = l.dropWhile q := by
  induction l with
  | nil => rfl
  | cons c cs ih =>
    rw [List.dropWhile_cons]
    by_cases h : q c = true
    · rw [if_pos h]
      exact ih
    · rw [if_neg h, List.dropWhile_cons, if_neg h]

theorem dropWhile_eq_self_of_head {q : Char → Bool} {l : Line}
    (h : ∀ c cs, l = c :: cs → q c = false) : l.dropWhile q = l := by
  cases l with
  | nil => rfl
  | cons c cs => rw [List.dropWhile_cons, if_neg (by rw [h c cs rfl]; simp)]

/-- Structural facts about a successful `parse_line` result: the hour
group is one or two digits, the minute group exactly two digits, a present
task id exactly five digits, the description carries no leading
whitespace, and when the task id is absent the description does not begin
with five digits (else group 2 would have matched them). -/
theorem parse_line_facts {line : Line} {p : Parsed} (h : parse_line line = some p) :
    p.hourDigits ≠ []
      ∧ p.hourDigits.length ≤ 2
      ∧ (∀ c ∈ p.hourDigits, pyDigit c = true)
      ∧ p.minuteDigits.length = 2
      ∧ (∀ c ∈ p.minuteDigits, pyDigit c = true)
      ∧ (∀ t, p.taskId = some t → t.length = 5 ∧ ∀ c ∈ t, pyDigit c = true)
      ∧ p.desc.dropWhile pySpace = p.desc
      ∧ (p.taskId = none →
          ¬((p.desc.take 5).length = 5 ∧ (p.desc.take 5).all pyDigit = true)) := by
  unfold parse_line at h
  simp only [] at h
  split at h
  · exact absurd h (by simp)
  · next hcond =>
    push_neg at hcond
    split at h
    · next m1 m2 r3 heq =>
      split at h
      · next hdig =>
        split at h
        · exact absurd h (by simp)
        · next c ctail hr3 =>
          split at h
          · next hsp =>
            rw [Bool.and_eq_true] at hdig
            split at h
            · next htake =>
              rw [Option.some.injEq] at h
              subst h
              refine ⟨?_, hcond.2, ?_, rfl, ?_, ?_, dropWhile_idem, ?_⟩
              · intro he
                exact hcond.1 (by simpa using congrArg List.length he)
              · exact fun c hc => List.mem_takeWhile_imp hc
              · intro x hx
                rcases List.mem_cons.mp hx with rfl | hx'
                · exact hdig.1
                · rw [List.mem_singleton.mp hx']
                  exact hdig.2
              · intro t ht
                injection ht with ht2
                subst ht2
                exact ⟨htake.1, fun x hx => List.all_eq_true.mp htake.2 x hx⟩
              · intro hno
                simp at hno
            · next htake =>
              rw [Option.some.injEq] at h
              subst h
              refine ⟨?_, hcond.2, ?_, rfl, ?_, ?_, dropWhile_idem, ?_⟩
              · intro he
                exact hcond.1 (by simpa using congrArg List.length he)
              · exact fun c hc => List.mem_takeWhile_imp hc
              · intro x hx
                rcases List.mem_cons.mp hx with rfl | hx'
                · exact hdig.1
                · rw [List.mem_singleton.mp hx']
                  exact hdig.2
              · intro t ht
                simp at ht
              · intro _
                exact htake
          · exact absurd h (by simp)
      · exact absurd h (by simp)
    · exact absurd h (by simp)

/-- The claim's reconstruction `"<time> <task_id?> <desc>"`: the time, then
the task id when present, then the description, space-separated. -/
def reassembled (p : Parsed) : Line :=
  p.timeStr ++ ' ' :: (match p.taskId with
    | some t => t ++ ' ' :: p.desc
    | none => p.desc)

/-- Evaluation of `parse_line` on a well-shaped line `"<digits>:<d><d> <rest>"`:
the regex consumes the time and the separating space, then the optional
five-digit task id decides which branch captures the groups. -/
theorem parse_line_shape (hd : Line) (m1 m2 : Char) (rest : Line)
    (hne : hd ≠ []) (hlen2 : hd.length ≤ 2) (hdigs : ∀ c ∈ hd, pyDigit c = true)
    (hm1 : pyDigit m1 = true) (hm2 : pyDigit m2 = true) :
    parse_line (hd ++ ':' :: m1 :: m2 :: ' ' :: rest)
      = if ((rest.dropWhile pySpace).take 5).length = 5
            ∧ ((rest.dropWhile pySpace).take 5).all pyDigit = true then
          some ⟨hd, [m1, m2], some ((rest.dropWhile pySpace).take 5),
            ((rest.dropWhile pySpace).drop 5).dropWhile pySpace⟩
        else some ⟨hd, [m1, m2], none, rest.dropWhile pySpace⟩ := by
  have h0 : (hd ++ ':' :: m1 :: m2 :: ' ' :: rest).dropWhile pySpace
      = hd ++ ':' :: m1 :: m2 :: ' ' :: rest := by
    apply dropWhile_eq_self_of_head
    intro c cs hcc
    obtain ⟨c₀, cs₀, rfl⟩ := List.exists_cons_of_ne_nil hne
    rw [List.cons_append] at hcc
    injection hcc with hc1 _
    subst hc1
    exact digit_not_space (hdigs c₀ (List.mem_cons_self _ _))
  have h1 : (hd ++ ':' :: m1 :: m2 :: ' ' :: rest).takeWhile pyDigit = hd :=
    takeWhile_append_all hdigs (by decide)
  have hcond : ¬(hd.length = 0 ∨ 2 < hd.length) := by
    rintro (hz | hgt)
    · exact hne (List.length_eq_zero.mp hz)
    · omega
  have h2 : List.drop hd.length (hd ++ ':' :: m1 :: m2 :: ' ' :: rest)
      = ':' :: m1 :: m2 :: ' ' :: rest := List.drop_left hd _
  have h3 : (' ' :: rest).dropWhile pySpace = rest.dropWhile pySpace := by
    rw [List.dropWhile_cons, if_pos (by decide)]
  unfold parse_line
  simp only [h0, h1, h2, if_neg hcond, hm1, hm2, Bool.and_self, h3]
  simp
  intro hsp
  exact absurd hsp (by decide)

/-- Claim C7: parsing a line and re-assembling `"<time> <task_id?> <desc>"`
from the three captured fields yields a line that parses to the same three
fields. -/
theorem parse_line_roundtrip {line : Line} {p : Parsed} (h : parse_line line = some p) :
    parse_line (reassembled p) = some p := by
  obtain ⟨hne, hlen2, hdigs, hmlen, hmdigs, hid, hdesc, hnone⟩ := parse_line_facts h
  obtain ⟨m1, m2, hm⟩ := List.length_eq_two.mp hmlen
  have hm1 : pyDigit m1 = true := hmdigs m1 (by rw [hm]; exact List.mem_cons_self _ _)
  have hm2 : pyDigit m2 = true := hmdigs m2 (by rw [hm]; simp)
  cases hti : p.taskId with
  | none =>
    have hR : reassembled p = p.hourDigits ++ ':' :: m1 :: m2 :: ' ' :: p.desc := by
      unfold reassembled Parsed.timeStr
      rw [hti, hm]
      simp [List.append_assoc]
    rw [hR, parse_line_shape _ _ _ _ hne hlen2 hdigs hm1 hm2]
    rw [show p.desc.dropWhile pySpace = p.desc from hdesc]
    rw [if_neg (hnone hti)]
    rw [← hm, ← hti]
  | some t =>
    obtain ⟨ht5, htd⟩ := hid t hti
    have htne : t ≠ [] := by
      intro he
      rw [he] at ht5
      simp at ht5
    have hR : reassembled p
        = p.hourDigits ++ ':' :: m1 :: m2 :: ' ' :: (t ++ ' ' :: p.desc) := by
      unfold reassembled Parsed.timeStr
      rw [hti, hm]
      simp [List.append_assoc]
    rw [hR, parse_line_shape _ _ _ _ hne hlen2 hdigs hm1 hm2]
    have hrest : (t ++ ' ' :: p.desc).dropWhile pySpace = t ++ ' ' :: p.desc := by
      apply dropWhile_eq_self_of_head
      intro c cs hcc
      obtain ⟨c₀, cs₀, rfl⟩ := List.exists_cons_of_ne_nil htne
      rw [List.cons_append] at hcc
      injection hcc with hc1 _
      subst hc1
      exact digit_not_space (htd c₀ (List.mem_cons_self _ _))
    rw [hrest]
    have htake : (t ++ ' ' :: p.desc).take 5 = t := by
      rw [← ht5]
      exact List.take_left t _
    rw [htake]
    rw [if_pos ⟨ht5, List.all_eq_true.mpr htd⟩]
    have hdrop : (t ++ ' ' :: p.desc).drop 5 = ' ' :: p.desc := by
      rw [← ht5]
      exact List.drop_left t _
    rw [hdrop]
    rw [show (' ' :: p.desc).dropWhile pySpace = p.desc.dropWhile pySpace from by
      rw [List.dropWhile_cons, if_pos (by decide)]]
    rw [hdesc]
    rw [← hm, ← hti]

/-- Claim C7 witness: the parse of `"08:00 12345 Fix bug"` round-trips. -/
theorem parse_line_roundtrip_witness :
    parse_line "08:00 12345 Fix bug".data
        = some ⟨"08".data, "00".data, some "12345".data, "Fix bug".data⟩
      ∧ parse_line (reassembled ⟨"08".data, "00".data, some "12345".data, "Fix bug".data⟩)
        = some ⟨"08".data, "00".data, some "12345".data, "Fix bug".data⟩ := by
  exact ⟨by decide, @parse_line_roundtrip "08:00 12345 Fix bug".data
    ⟨"08".data, "00".data, some "12345".data, "Fix bug".data⟩ (by decide)⟩

end Logtime
